import Mathlib

/-!
Shallow embedding of `src/ops/union.rs` (the noria `Union` dataflow operator)
and proofs about its specification.

Modelling conventions:
* `NodeAddress` is modelled by `Nat` (the operator only ever uses addresses as
  map keys and via `as_local()`, which we take to be the identity).
* Rust `HashMap` and the dense `Map` of the flow prelude are modelled by
  association lists; the dense `Map` (keyed by local node indices) keeps its
  entries sorted by key, matching the ascending iteration order of the
  vector-backed map in the source.
* A Rust panic (`assert!`, `unimplemented!`, out-of-bounds indexing, indexing a
  map with a missing key) is modelled by `Option`, with `none` meaning the
  operation dies fatally.
-/

namespace Noria

/-- Cell values (`DataType` in the source): tagged scalars used both as row
contents and as replay keys. -/
inductive DataType where
  | int (n : Int)
  | text (s : String)
  | null
deriving DecidableEq, Repr

/-- Rows are ordered sequences of values. -/
abbrev Row := List DataType

/-- A record is a row tagged with a sign: positive (insertion) or negative
(retraction). -/
inductive Record where
  | positive (row : Row)
  | negative (row : Row)
deriving DecidableEq, Repr

/-- Batches of records (`Records` in the source). -/
abbrev Records := List Record

/-- Mirrors `Record::extract`, splitting a record into its row and sign. -/
def Record.extract : Record → Row × Bool
  | .positive r => (r, true)
  | .negative r => (r, false)

/-- The row of a record. -/
def Record.row (r : Record) : Row := r.extract.1

/-- The sign of a record (`true` = positive). -/
def Record.sign (r : Record) : Bool := r.extract.2

/-- Row indexing `r[k]` on a record, which panics (here: `none`) when the
index is out of bounds. -/
def Record.get? (r : Record) (k : Nat) : Option DataType := r.row[k]?

/-- Rebuild a record from a sign and a row, as the projecting transform does. -/
def Record.mk2 (pos : Bool) (r : Row) : Record :=
  if pos then .positive r else .negative r

/-- Lookup in an association list (a Rust `HashMap` / `Map` read). -/
def alookup {α β : Type} [DecidableEq α] : List (α × β) → α → Option β
  | [], _ => none
  | (k, v) :: rest, k' => if k' = k then some v else alookup rest k'

/-- Insertion into the dense, key-sorted map (`Map<T>` of the flow prelude):
entries stay sorted by key so that iteration is in ascending key order. -/
def minsert {β : Type} (k : Nat) (v : β) : List (Nat × β) → List (Nat × β)
  | [] => [(k, v)]
  | (k', v') :: rest =>
    if k < k' then (k, v) :: (k', v') :: rest
    else if k = k' then (k, v) :: rest
    else (k', v') :: minsert k v rest

/-- Replace-or-append insertion for a `HashMap` (iteration order is never
semantically relevant for these maps in the source). -/
def hinsert {α β : Type} [DecidableEq α] (k : α) (v : β) :
    List (α × β) → List (α × β)
  | [] => [(k, v)]
  | (k', v') :: rest =>
    if k = k' then (k, v) :: rest else (k', v') :: hinsert k v rest

/-- Removal of a key from a `HashMap` (first occurrence; keys are unique in
all the maps the operator maintains). -/
def hremove {α β : Type} [DecidableEq α] (k : α) :
    List (α × β) → List (α × β)
  | [] => []
  | (k', v') :: rest => if k = k' then rest else (k', v') :: hremove k rest

/-- Sequencing of a fallible map over a list: `none` as soon as one element
fails, mirroring a Rust iterator whose body can panic. -/
def optMap {α β : Type} (g : α → Option β) : List α → Option (List β)
  | [] => some []
  | x :: xs =>
    match g x, optMap g xs with
    | some y, some ys => some (y :: ys)
    | _, _ => none

/-- The emit policy: forward everything from one ancestor (`AllFrom`, the
shard-merge mode) or project configured columns per named ancestor
(`Project`). -/
inductive Emit where
  | allFrom (p : Nat)
  | project (emit : List (Nat × List Nat)) (cols : List (Nat × Nat))
deriving DecidableEq, Repr

/-- The union operator's state: the immutable emit policy, the lazily
established replay key (local ancestor id → input key column), and the replay
buffer (key value → per-ancestor buffered batches). -/
structure Union where
  emit : Emit
  replay_key : Option (List (Nat × Nat))
  replay_pieces : List (DataType × List (Nat × Records))
deriving DecidableEq, Repr

/-- Miss reports of a processing result; the union never produces any. -/
structure Miss where
deriving DecidableEq, Repr

/-- Result of regular processing: transformed records plus misses. -/
structure ProcessingResult where
  results : Records
  misses : List Miss
deriving DecidableEq, Repr

/-- Result of replay-aware processing. -/
inductive RawProcessingResult where
  | regular (r : ProcessingResult)
  | replayPiece (rs : Records)
  | captured
deriving DecidableEq, Repr

/-- The monotonicity scan of `Union::new`: starting from `emit[0]` (a panic on
an empty list), walk the whole list and die on any adjacent decrease. -/
def checkScan : Nat → List Nat → Bool
  | _, [] => true
  | last, i :: rest => if i < last then false else checkScan i rest

/-- Runs the constructor's per-ancestor column-list check; `none` is the
`unimplemented!()` (or the `&emit[0]` out-of-bounds panic on an empty list). -/
def checkEmitList : List Nat → Option Unit
  | [] => none
  | x :: xs => if checkScan x (x :: xs) then some () else none

/-- Mirrors `Union::new`: asserts the emit map non-empty, checks each column
list, and builds the projecting union. -/
def Union.new (emit : List (Nat × List Nat)) : Option Union :=
  if emit.isEmpty then none
  else if emit.all (fun p => (checkEmitList p.2).isSome) then
    some ⟨.project emit [], none, []⟩
  else none

/-- Mirrors `Union::new_deshard`. -/
def Union.new_deshard (parent : Nat) : Union := ⟨.allFrom parent, none, []⟩

/-- Mirrors `Clone for Union`: the policy is copied, replay key and replay
buffer start empty. -/
def Union.clone (u : Union) : Union :=
  { emit := u.emit, replay_key := none, replay_pieces := [] }

/-- Mirrors `Ingredient::take`, which clones. -/
def Union.take (u : Union) : Union := u.clone

/-- Mirrors `ancestors()`. -/
def Union.ancestors (u : Union) : List Nat :=
  match u.emit with
  | .allFrom p => [p]
  | .project emit _ => emit.map (fun p => p.1)

/-- Mirrors `should_materialize()`. -/
def Union.should_materialize (_ : Union) : Bool := false

/-- Mirrors `will_query(_)`. -/
def Union.will_query (_ : Union) (_ : Bool) : Bool := false

/-- Mirrors `suggest_indexes(_)`: always the empty map. -/
def Union.suggest_indexes (_ : Union) (_ : Nat) : List (Nat × List Nat) := []

/-- Mirrors `on_connected`: cache each ancestor's field count from the graph
(modelled as a function from node id to field count). -/
def Union.on_connected (u : Union) (g : Nat → Nat) : Union :=
  match u.emit with
  | .allFrom _ => u
  | .project emit cols =>
    let cols' := emit.foldl (fun c p => hinsert p.1 (g p.1) c) cols
    { u with emit := .project emit cols' }

/-- One remap step of `on_commit` for one `(from, to)` pair on one map:
identity pairs are skipped, a missing source key is a no-op, and inserting
onto an occupied target key is the failing `assert!` (`none`). -/
def remapOne {β : Type} (m : List (Nat × β)) (f t : Nat) :
    Option (List (Nat × β)) :=
  if f = t then some m
  else
    match alookup m f with
    | none => some m
    | some e =>
      let m' := hremove f m
      if (alookup m' t).isSome then none else some (m' ++ [(t, e)])

/-- Folds `remapOne` over the whole remap table in order. -/
def remapFold {β : Type} (m : List (Nat × β)) :
    List (Nat × Nat) → Option (List (Nat × β))
  | [] => some m
  | (f, t) :: rest =>
    match remapOne m f t with
    | none => none
    | some m' => remapFold m' rest

/-- Lookup of a key through the remap table, leaving keys without an entry
unchanged — the per-key effect `on_commit` is meant to have. -/
def mapThrough (remap : List (Nat × Nat)) (k : Nat) : Nat :=
  (alookup remap k).getD k

/-- Sequential application of every remap entry, in table order, to one key:
the rewrite a key actually undergoes during the `on_commit` loop. -/
def rwAll (remap : List (Nat × Nat)) (k : Nat) : Nat :=
  remap.foldl (fun k' ft => if k' = ft.1 then ft.2 else k') k

/-- Mirrors `on_commit`: rewrite the `emit` and `cols` keys (projecting
variant) or the parent (`remap[p]` panics when `p` is absent). -/
def Union.on_commit (u : Union) (remap : List (Nat × Nat)) : Option Union :=
  match u.emit with
  | .project emit cols =>
    match remapFold emit remap, remapFold cols remap with
    | some emit', some cols' =>
      some { u with emit := .project emit' cols' }
    | _, _ => none
  | .allFrom p =>
    match alookup remap p with
    | none => none
    | some p' => some { u with emit := .allFrom p' }

/-- Mirrors `on_input`, the regular transform: identity for shard-merge, and
per-record column projection (preserving the sign) for the projecting union;
`none` models the panics of `emit[&from]` and `r[col]`. -/
def Union.on_input (u : Union) (frm : Nat) (rs : Records) :
    Option ProcessingResult :=
  match u.emit with
  | .allFrom _ => some ⟨rs, []⟩
  | .project emit _ =>
    match alookup emit frm with
    | none => none
    | some cols =>
      match optMap (fun rec =>
          match optMap (fun col => rec.extract.1[col]?) cols with
          | none => none
          | some res => some (Record.mk2 rec.extract.2 res)) rs with
      | none => none
      | some out => some ⟨out, []⟩

/-- The slow-path loop of the ordinary-batch branch of `on_input_raw`: for
each record, look up the key column for the sender in the replay key map
(a panic when absent), read the record's key value (a panic when the row is
too short), and append the record to the sender's buffered piece when one
exists for that key value. -/
def absorbLeaked (rk : List (Nat × Nat)) (frm : Nat) :
    List (DataType × List (Nat × Records)) → Records →
    Option (List (DataType × List (Nat × Records)))
  | pieces, [] => some pieces
  | pieces, r :: rest =>
    match alookup rk frm with
    | none => none
    | some k =>
      match r.get? k with
      | none => none
      | some kv =>
        let pieces' :=
          match alookup pieces kv with
          | none => pieces
          | some m =>
            match alookup m frm with
            | none => pieces
            | some buf => hinsert kv (minsert frm (buf ++ [r]) m) pieces
        absorbLeaked rk frm pieces' rest

/-- The replay-key establishment of `on_input_raw` on the first replay piece:
shard-merge maps the sending shard to the key column directly; the projecting
union translates the output key column through each ancestor's emit list
(`emit[key_col]` panics when out of range). -/
def Union.establishReplayKey (u : Union) (frm : Nat) (key_col : Nat) :
    Option Union :=
  if u.replay_key.isNone then
    match u.emit with
    | .allFrom _ => some { u with replay_key := some [(frm, key_col)] }
    | .project emit _ =>
      match optMap (fun p =>
          match p.2[key_col]? with
          | none => none
          | some c => some (p.1, c)) emit with
      | none => none
      | some rk => some { u with replay_key := some rk }
  else some u

/-- The ancestor-count threshold for completion: shard count for `AllFrom`,
emit-map size for `Project`. -/
def Union.threshold (u : Union) (nshards : Nat) : Nat :=
  match u.emit with
  | .allFrom _ => nshards
  | .project emit _ => emit.length

/-- Mirrors `on_input_raw`: ordinary batches take the fast path when no
replay is in flight and otherwise leak-absorb then forward; replay pieces
establish the replay key, are buffered (a duplicate per (key, ancestor) is
the failing `assert!`), and release the merged replay exactly when the
threshold is reached. -/
def Union.on_input_raw (u : Union) (frm : Nat) (rs : Records)
    (is_replay_of : Option (Nat × DataType)) (nshards : Nat) :
    Option (Union × RawProcessingResult) :=
  match is_replay_of with
  | none =>
    if u.replay_key.isNone || u.replay_pieces.isEmpty then
      match u.on_input frm rs with
      | none => none
      | some pr => some (u, .regular pr)
    else
      match u.replay_key with
      | none => none
      | some rk =>
        match absorbLeaked rk frm u.replay_pieces rs with
        | none => none
        | some pieces' =>
          let u' := { u with replay_pieces := pieces' }
          match u'.on_input frm rs with
          | none => none
          | some pr => some (u', .regular pr)
  | some (key_col, key_val) =>
    match u.establishReplayKey frm key_col with
    | none => none
    | some u1 =>
      let pieces0 := (alookup u1.replay_pieces key_val).getD []
      if (alookup pieces0 frm).isSome then none
      else
        let pieces1 := minsert frm rs pieces0
        if pieces1.length = u1.threshold nshards then
          let u2 := { u1 with
            replay_pieces := hremove key_val u1.replay_pieces }
          match optMap (fun p =>
              match u2.on_input p.1 p.2 with
              | none => none
              | some pr => some pr.results) pieces1 with
          | none => none
          | some outs => some (u2, .replayPiece outs.flatten)
        else
          some ({ u1 with
            replay_pieces := hinsert key_val pieces1 u1.replay_pieces },
            .captured)

/-- Mirrors `resolve(col)`: the outer `Option` is the panic of `emit[col]`,
the inner one is the `Option` of the Rust signature (always `Some` here). -/
def Union.resolve (u : Union) (col : Nat) :
    Option (Option (List (Nat × Nat))) :=
  match u.emit with
  | .allFrom p => some (some [(p, col)])
  | .project emit _ =>
    match optMap (fun p =>
        match p.2[col]? with
        | none => none
        | some c => some (p.1, c)) emit with
    | none => none
    | some l => some (some l)

/-- Mirrors `parent_columns(col)`; the `Option` is the panic of `emit[col]`. -/
def Union.parent_columns (u : Union) (col : Nat) :
    Option (List (Nat × Option Nat)) :=
  match u.emit with
  | .allFrom p => some [(p, some col)]
  | .project emit _ =>
    optMap (fun p =>
        match p.2[col]? with
        | none => none
        | some c => some (p.1, some c)) emit

/-! ### Generic helper lemmas -/

theorem optMap_eq_map {α β : Type} (g : α → Option β) (f : α → β) :
    ∀ l : List α, (∀ x ∈ l, g x = some (f x)) → optMap g l = some (l.map f)
  | [], _ => rfl
  | x :: xs, h => by
    have h1 := h x (List.mem_cons_self x xs)
    have h2 := optMap_eq_map g f xs (fun y hy => h y (List.mem_cons_of_mem x hy))
    simp [optMap, h1, h2]

theorem getElem?_eq_some_getD {α : Type} (l : List α) (c : Nat) (d : α)
    (h : c < l.length) : l[c]? = some (l.getD c d) := by
  rw [List.getD_eq_getElem l d h, List.getElem?_eq_getElem h]

theorem record_extract_row (r : Record) : r.extract.1 = r.row := rfl

theorem record_extract_sign (r : Record) : r.extract.2 = r.sign := rfl

/-! ### Claim theorems -/

/-- C8: duplicating the operator (`clone`, and `take` which clones) keeps the
emit policy, resets the replay key to `none` and empties the replay buffer;
no other field of the original is consulted or changed. -/
theorem clone_resets_replay_state (u : Union) :
    u.clone.emit = u.emit ∧ u.clone.replay_key = none ∧
      u.clone.replay_pieces = [] ∧ u.take = u.clone :=
  ⟨rfl, rfl, rfl, rfl⟩

/-- C5: the regular transform of a shard-merge (`AllFrom`) union returns the
input batch unchanged with zero misses, whatever ancestor/shard sent it. -/
theorem allfrom_transform_identity (u : Union) (p frm : Nat) (rs : Records)
    (h : u.emit = .allFrom p) :
    u.on_input frm rs = some ⟨rs, []⟩ := by
  unfold Union.on_input
  rw [h]

/-- Closed instance discharging the hypothesis of `allfrom_transform_identity`
at a concrete shard-merge union and batch. -/
theorem allfrom_transform_identity_witness :
    Union.on_input (Union.new_deshard 5) 7
        [Record.positive [DataType.int 3]] =
      some ⟨[Record.positive [DataType.int 3]], []⟩ :=
  allfrom_transform_identity (Union.new_deshard 5) 5 7
    [Record.positive [DataType.int 3]] rfl

/-- C4: the regular transform of a projecting union rebuilds every record by
selecting, in the configured order, the sender's configured column indices
from the input row, preserves the record's sign, and reports zero misses. -/
theorem project_transform_spec (em : List (Nat × List Nat))
    (cs : List (Nat × Nat)) (rk : Option (List (Nat × Nat)))
    (rp : List (DataType × List (Nat × Records)))
    (frm : Nat) (cols : List Nat) (rs : Records)
    (hcols : alookup em frm = some cols)
    (hin : ∀ r ∈ rs, ∀ c ∈ cols, c < r.row.length) :
    Union.on_input ⟨.project em cs, rk, rp⟩ frm rs =
      some ⟨rs.map (fun r => Record.mk2 r.sign
        (cols.map (fun c => r.row.getD c DataType.null))), []⟩ := by
  simp only [Union.on_input, hcols]
  rw [optMap_eq_map _
    (fun r => Record.mk2 r.sign (cols.map (fun c => r.row.getD c DataType.null)))
    rs ?_]
  intro r hr
  rw [optMap_eq_map _ (fun c => r.row.getD c DataType.null) cols ?_]
  · rw [record_extract_sign]
  · intro c hc
    rw [record_extract_row]
    exact getElem?_eq_some_getD r.row c DataType.null (hin r hr c hc)

/-- Closed instance of `project_transform_spec` at the two-ancestor scenario:
emits `{L ↦ [0, 1], R ↦ [0, 2]}`, row `[1, "a"]` from `L` yields `[1, "a"]`,
row `[1, "skipped", "x"]` from `R` yields `[1, "x"]`, with zero misses. -/
theorem project_transform_spec_witness :
    Union.on_input ⟨.project [(1, [0, 1]), (2, [0, 2])] [], none, []⟩ 1
        [Record.positive [DataType.int 1, DataType.text "a"]] =
      some ⟨[Record.positive [DataType.int 1, DataType.text "a"]], []⟩ ∧
    Union.on_input ⟨.project [(1, [0, 1]), (2, [0, 2])] [], none, []⟩ 2
        [Record.positive
          [DataType.int 1, DataType.text "skipped", DataType.text "x"]] =
      some ⟨[Record.positive [DataType.int 1, DataType.text "x"]], []⟩ := by
  constructor
  · rw [project_transform_spec [(1, [0, 1]), (2, [0, 2])] [] none [] 1 [0, 1]
      [Record.positive [DataType.int 1, DataType.text "a"]]
      (by decide) (by decide)]
    rfl
  · rw [project_transform_spec [(1, [0, 1]), (2, [0, 2])] [] none [] 2 [0, 2]
      [Record.positive
        [DataType.int 1, DataType.text "skipped", DataType.text "x"]]
      (by decide) (by decide)]
    rfl

/-- The constructor scan accepts a list started at `x` exactly when the list
with `x` in front is sorted non-decreasingly. -/
theorem checkScan_eq_chain :
    ∀ (last : Nat) (l : List Nat),
      checkScan last l = true ↔ List.Chain' (fun a b => a ≤ b) (last :: l)
  | _, [] => by simp [checkScan]
  | last, i :: rest => by
    rw [checkScan]
    by_cases h : i < last
    · simp only [if_pos h]
      simp [List.chain'_cons]
      intro h2
      omega
    · simp only [if_neg h]
      rw [checkScan_eq_chain i rest]
      simp [List.chain'_cons]
      omega

/-- The per-list constructor check passes exactly on non-empty,
non-decreasing lists. -/
theorem checkEmitList_isSome (l : List Nat) :
    (checkEmitList l).isSome = true ↔
      l ≠ [] ∧ List.Chain' (fun a b => a ≤ b) l := by
  cases l with
  | nil => simp [checkEmitList]
  | cons x xs =>
    rw [checkEmitList]
    by_cases h : checkScan x (x :: xs) = true
    · rw [if_pos h]
      rw [checkScan_eq_chain] at h
      rw [List.chain'_cons'] at h
      simp [h.2]
    · rw [if_neg h]
      rw [checkScan_eq_chain] at h
      rw [List.chain'_cons'] at h
      simp only [Option.isSome_none, Bool.false_eq_true, false_iff, not_and]
      intro
      intro hc
      exact h ⟨fun y hy => by simp_all [List.head?_cons], hc⟩

/-- C3 (counterexample to the claim as stated): `[0, 0]` is not strictly
increasing, yet `Union::new` accepts an emit map containing it — the
constructor's scan only rejects an adjacent *decrease*, so duplicated column
indices pass. -/
theorem new_nonstrict_accepted :
    ¬ List.Chain' (fun a b => a < b) [0, 0] ∧
      (Union.new [(0, [0, 0])]).isSome = true := by
  constructor
  · rw [List.chain'_cons]
    intro h
    omega
  · decide

/-- C3 (amended): constructing a projecting union succeeds exactly when the
emit map is non-empty and every ancestor's column list is non-empty and
non-decreasing; in particular a list with a strict decrease such as `[1, 0]`
is rejected fatally. -/
theorem new_succeeds_iff (emit : List (Nat × List Nat)) :
    (Union.new emit).isSome = true ↔
      emit ≠ [] ∧
        ∀ p ∈ emit, p.2 ≠ [] ∧ List.Chain' (fun a b => a ≤ b) p.2 := by
  unfold Union.new
  by_cases he : emit.isEmpty
  · rw [if_pos he]
    simp only [Option.isSome_none, Bool.false_eq_true, false_iff, not_and]
    intro hne
    exact absurd (List.isEmpty_iff.mp he) hne
  · rw [if_neg he]
    by_cases ha : emit.all (fun p => (checkEmitList p.2).isSome)
    · rw [if_pos ha]
      simp only [Option.isSome_some, true_iff]
      refine ⟨fun hn => he (by simp [hn]), fun p hp => ?_⟩
      rw [← checkEmitList_isSome]
      exact List.all_eq_true.mp ha p hp
    · rw [if_neg ha]
      simp only [Option.isSome_none, Bool.false_eq_true, false_iff, not_and]
      intro
      intro hall
      apply ha
      rw [List.all_eq_true]
      intro p hp
      rw [checkEmitList_isSome]
      exact hall p hp

/-- Closed instances discharging `new_succeeds_iff` concretely: the
non-monotonic `[1, 0]` configuration is rejected, while the two-ancestor
strictly-increasing configuration is accepted. -/
theorem new_succeeds_iff_witness :
    ¬ (Union.new [(0, [1, 0])]).isSome = true ∧
      (Union.new [(1, [0, 1]), (2, [0, 2])]).isSome = true := by
  constructor
  · rw [new_succeeds_iff [(0, [1, 0])]]
    intro h
    have h2 := (h.2 (0, [1, 0]) (by simp)).2
    rw [List.chain'_cons] at h2
    omega
  · rw [new_succeeds_iff [(1, [0, 1]), (2, [0, 2])]]
    refine ⟨by simp, ?_⟩
    intro p hp
    rcases List.mem_cons.mp hp with h | h
    · subst h
      exact ⟨by simp, by simp [List.chain'_cons]⟩
    · rw [List.mem_singleton] at h
      subst h
      exact ⟨by simp, by simp [List.chain'_cons]⟩

theorem alookup_minsert_self {β : Type} (k : Nat) (v : β) :
    ∀ m : List (Nat × β), alookup (minsert k v m) k = some v
  | [] => by simp [minsert, alookup]
  | (k', v') :: rest => by
    rw [minsert]
    by_cases h1 : k < k'
    · simp [if_pos h1, alookup]
    · rw [if_neg h1]
      by_cases h2 : k = k'
      · simp [if_pos h2, alookup]
      · rw [if_neg h2]
        rw [alookup, if_neg h2]
        exact alookup_minsert_self k v rest

theorem on_input_only_emit (e : Emit) (a b : Option (List (Nat × Nat)))
    (p q : List (DataType × List (Nat × Records))) (frm : Nat)
    (rs : Records) :
    Union.on_input ⟨e, a, p⟩ frm rs = Union.on_input ⟨e, b, q⟩ frm rs := rfl

theorem isNone_of_isSome {α : Type} {o : Option α}
    (h : o.isSome = true) : o.isNone = false := by
  cases o with
  | none => simp at h
  | some a => rfl

/-- C6: a replay piece arriving for a (key value, ancestor) pair that already
has a buffered piece trips the `assert!` — processing dies fatally instead of
overwriting or merging, so at most one outstanding piece per (key, ancestor)
pair ever exists. -/
theorem duplicate_piece_fatal (u : Union) (frm : Nat) (rs : Records)
    (kc : Nat) (kv : DataType) (nshards : Nat)
    (hrk : u.replay_key.isSome = true)
    (m : List (Nat × Records))
    (hm : alookup u.replay_pieces kv = some m)
    (hdup : (alookup m frm).isSome = true) :
    u.on_input_raw frm rs (some (kc, kv)) nshards = none := by
  have hest : u.establishReplayKey frm kc = some u := by
    unfold Union.establishReplayKey
    rw [isNone_of_isSome hrk]
    rfl
  simp only [Union.on_input_raw, hest, hm, Option.getD_some, hdup, if_true]

/-- Closed instance discharging `duplicate_piece_fatal` at a concrete union
state with a buffered piece for the arriving (key, ancestor) pair. -/
theorem duplicate_piece_fatal_witness :
    Union.on_input_raw
        ⟨.project [(1, [0, 1]), (2, [0, 2])] [], some [(1, 0), (2, 0)],
          [(DataType.int 1, [(1, [Record.positive [DataType.int 1]])])]⟩
        1 [] (some (0, DataType.int 1)) 0 = none :=
  duplicate_piece_fatal
    ⟨.project [(1, [0, 1]), (2, [0, 2])] [], some [(1, 0), (2, 0)],
      [(DataType.int 1, [(1, [Record.positive [DataType.int 1]])])]⟩
    1 [] 0 (DataType.int 1) 0 (by decide)
    [(1, [Record.positive [DataType.int 1]])] (by decide) (by decide)

/-- C2: an ordinary record arriving while a partial replay is in flight is
always forwarded through the regular transform; when the sending ancestor
already has a buffered piece for the record's key value, the record is also
appended to that piece (occurring there exactly once more than before), and
when no piece is buffered for that (key, ancestor) the buffer is untouched. -/
theorem leak_forward_spec (e : Emit)
    (rp0 : List (DataType × List (Nat × Records)))
    (frm : Nat) (r : Record) (rk : List (Nat × Nat)) (k : Nat)
    (kv : DataType) (nshards : Nat) (pr : ProcessingResult)
    (hne : rp0 ≠ [])
    (hk : alookup rk frm = some k)
    (hkv : r.get? k = some kv)
    (hpr : Union.on_input ⟨e, some rk, rp0⟩ frm [r] = some pr) :
    (∀ m buf, alookup rp0 kv = some m → alookup m frm = some buf →
      (Union.on_input_raw ⟨e, some rk, rp0⟩ frm [r] none nshards =
        some (⟨e, some rk, hinsert kv (minsert frm (buf ++ [r]) m) rp0⟩,
          .regular pr) ∧
       alookup (minsert frm (buf ++ [r]) m) frm = some (buf ++ [r]) ∧
       (buf ++ [r]).count r = buf.count r + 1)) ∧
    (∀ m, alookup rp0 kv = some m → alookup m frm = none →
      Union.on_input_raw ⟨e, some rk, rp0⟩ frm [r] none nshards =
        some (⟨e, some rk, rp0⟩, .regular pr)) ∧
    (alookup rp0 kv = none →
      Union.on_input_raw ⟨e, some rk, rp0⟩ frm [r] none nshards =
        some (⟨e, some rk, rp0⟩, .regular pr)) := by
  have hempty : rp0.isEmpty = false := by
    cases hp : rp0 with
    | nil => exact absurd hp hne
    | cons a t => rfl
  refine ⟨fun m buf hm hbuf => ⟨?_, ?_, ?_⟩, fun m hm hbuf => ?_, fun hm => ?_⟩
  · simp only [Union.on_input_raw, hempty, absorbLeaked, hk, hkv, hm, hbuf,
      Option.isNone_some, Bool.false_or, Bool.false_eq_true, if_false]
    rw [on_input_only_emit e (some rk) (some rk)
      (hinsert kv (minsert frm (buf ++ [r]) m) rp0) rp0 frm [r], hpr]
  · exact alookup_minsert_self frm (buf ++ [r]) m
  · simp
  · simp only [Union.on_input_raw, hempty, absorbLeaked, hk, hkv, hm, hbuf,
      Option.isNone_some, Bool.false_or, Bool.false_eq_true, if_false, hpr]
  · simp only [Union.on_input_raw, hempty, absorbLeaked, hk, hkv, hm,
      Option.isNone_some, Bool.false_or, Bool.false_eq_true, if_false, hpr]

/-- Closed instance discharging `leak_forward_spec` concretely: with ancestor
1's piece for key 1 buffered, an ordinary record for key 1 from ancestor 1 is
appended to the piece and still forwarded projected downstream. -/
theorem leak_forward_spec_witness :
    Union.on_input_raw
        ⟨.project [(1, [0, 1]), (2, [0, 2])] [], some [(1, 0), (2, 0)],
          [(DataType.int 1, [(1, [Record.positive
            [DataType.int 1, DataType.text "a"]])])]⟩
        1 [Record.negative [DataType.int 1, DataType.text "b"]] none 3 =
      some (⟨.project [(1, [0, 1]), (2, [0, 2])] [], some [(1, 0), (2, 0)],
          [(DataType.int 1, [(1, [Record.positive
              [DataType.int 1, DataType.text "a"],
            Record.negative [DataType.int 1, DataType.text "b"]])])]⟩,
        .regular ⟨[Record.negative [DataType.int 1, DataType.text "b"]], []⟩) := by
  have h := leak_forward_spec
    (.project [(1, [0, 1]), (2, [0, 2])] [])
    [(DataType.int 1, [(1, [Record.positive
      [DataType.int 1, DataType.text "a"]])])]
    1 (Record.negative [DataType.int 1, DataType.text "b"])
    [(1, 0), (2, 0)] 0 (DataType.int 1) 3
    ⟨[Record.negative [DataType.int 1, DataType.text "b"]], []⟩
    (by simp) (by decide) (by decide) (by decide)
  exact (h.1 [(1, [Record.positive [DataType.int 1, DataType.text "a"]])]
    [Record.positive [DataType.int 1, DataType.text "a"]]
    (by decide) (by decide)).1

/-- C9: for the projecting union, `resolve` and `parent_columns` both return
exactly one (ancestor, source column) pair per ancestor, pairing each
ancestor with its emit list's entry at the requested output column; for
shard-merge they return the single pair (parent, column). -/
theorem resolve_parent_columns_spec (em : List (Nat × List Nat))
    (cs : List (Nat × Nat)) (rk : Option (List (Nat × Nat)))
    (rp : List (DataType × List (Nat × Records))) (col : Nat)
    (hin : ∀ p ∈ em, col < p.2.length) :
    Union.resolve ⟨.project em cs, rk, rp⟩ col =
      some (some (em.map (fun p => (p.1, p.2.getD col 0)))) ∧
    Union.parent_columns ⟨.project em cs, rk, rp⟩ col =
      some (em.map (fun p => (p.1, some (p.2.getD col 0)))) ∧
    (em.map (fun p => (p.1, p.2.getD col 0))).map Prod.fst =
      Union.ancestors ⟨.project em cs, rk, rp⟩ ∧
    (∀ (v : Union) (q : Nat), v.emit = .allFrom q →
      v.resolve col = some (some [(q, col)]) ∧
      v.parent_columns col = some [(q, some col)]) := by
  refine ⟨?_, ?_, ?_, ?_⟩
  · simp only [Union.resolve]
    rw [optMap_eq_map _ (fun p => (p.1, p.2.getD col 0)) em ?_]
    intro p hp
    rw [getElem?_eq_some_getD p.2 col 0 (hin p hp)]
  · simp only [Union.parent_columns]
    rw [optMap_eq_map _ (fun p => (p.1, some (p.2.getD col 0))) em ?_]
    intro p hp
    rw [getElem?_eq_some_getD p.2 col 0 (hin p hp)]
  · simp [Union.ancestors]
  · intro v q hq
    constructor
    · simp only [Union.resolve, hq]
    · simp only [Union.parent_columns, hq]

/-- Closed instance discharging `resolve_parent_columns_spec` at the
two-ancestor scenario: `resolve 1` yields exactly `{(L, 1), (R, 2)}` and
`parent_columns 1` the same pairs. -/
theorem resolve_parent_columns_spec_witness :
    Union.resolve ⟨.project [(1, [0, 1]), (2, [0, 2])] [], none, []⟩ 1 =
      some (some [(1, 1), (2, 2)]) ∧
    Union.parent_columns ⟨.project [(1, [0, 1]), (2, [0, 2])] [], none, []⟩ 1 =
      some [(1, some 1), (2, some 2)] := by
  have h := resolve_parent_columns_spec [(1, [0, 1]), (2, [0, 2])] [] none [] 1
    (by
      intro p hp
      rcases List.mem_cons.mp hp with h1 | h1
      · subst h1; simp
      · rw [List.mem_singleton] at h1; subst h1; simp)
  exact ⟨h.1, h.2.1⟩

theorem alookup_eq_none_of_not_mem {α β : Type} [DecidableEq α] (k : α) :
    ∀ m : List (α × β), k ∉ m.map Prod.fst → alookup m k = none
  | [], _ => rfl
  | (k', v') :: rest, h => by
    rw [alookup, if_neg (fun hk => h (by simp [hk]))]
    exact alookup_eq_none_of_not_mem k rest (fun hm => h (by simp [hm]))

theorem alookup_hremove_self {α β : Type} [DecidableEq α] (k : α) :
    ∀ m : List (α × β), (m.map Prod.fst).Nodup →
      alookup (hremove k m) k = none
  | [], _ => rfl
  | (k', v') :: rest, h => by
    rw [List.map_cons, List.nodup_cons] at h
    rw [hremove]
    by_cases hk : k = k'
    · rw [if_pos hk]
      subst hk
      exact alookup_eq_none_of_not_mem k rest h.1
    · rw [if_neg hk, alookup, if_neg hk]
      exact alookup_hremove_self k rest h.2

theorem on_input_raw_preserves_replay_key (u : Union) (frm : Nat)
    (rs : Records) (iro : Option (Nat × DataType)) (nshards : Nat)
    (u' : Union) (res : RawProcessingResult)
    (hs : u.replay_key.isSome = true)
    (h : u.on_input_raw frm rs iro nshards = some (u', res)) :
    u'.replay_key = u.replay_key := by
  cases iro with
  | none =>
    simp only [Union.on_input_raw] at h
    split at h
    · split at h
      · exact absurd h (by simp)
      · simp only [Option.some.injEq, Prod.mk.injEq] at h
        rw [← h.1]
    · split at h
      · exact absurd h (by simp)
      · split at h
        · exact absurd h (by simp)
        · split at h
          · exact absurd h (by simp)
          · simp only [Option.some.injEq, Prod.mk.injEq] at h
            rw [← h.1]
  | some kk =>
    obtain ⟨kc, kv⟩ := kk
    have hest : u.establishReplayKey frm kc = some u := by
      unfold Union.establishReplayKey
      rw [isNone_of_isSome hs]
      rfl
    simp only [Union.on_input_raw, hest] at h
    split at h
    · exact absurd h (by simp)
    · split at h
      · split at h
        · exact absurd h (by simp)
        · simp only [Option.some.injEq, Prod.mk.injEq] at h
          rw [← h.1]
      · simp only [Option.some.injEq, Prod.mk.injEq] at h
        rw [← h.1]

/-- C1: once a replay piece for key value `kv` from an ancestor with no piece
yet buffered is inserted, the batch is fully captured (nothing emitted) while
the number of buffered ancestors stays below the threshold (ancestor count
for `Project`, shard count for `AllFrom`); exactly when it reaches the
threshold, the whole per-key buffer is removed and one finished replay piece
is released whose records are the concatenation of every ancestor's buffered
batch run through the regular transform, each batch's internal order
preserved. -/
theorem replay_completion_spec (e : Emit)
    (rp0 : List (DataType × List (Nat × Records)))
    (frm : Nat) (rs : Records) (kc : Nat) (kv : DataType) (nshards : Nat)
    (rk : List (Nat × Nat)) (pieces1 : List (Nat × Records))
    (hnew : alookup ((alookup rp0 kv).getD []) frm = none)
    (hp1 : pieces1 = minsert frm rs ((alookup rp0 kv).getD []))
    (hnd : (rp0.map Prod.fst).Nodup) :
    (pieces1.length < Union.threshold ⟨e, some rk, rp0⟩ nshards →
      Union.on_input_raw ⟨e, some rk, rp0⟩ frm rs (some (kc, kv)) nshards =
        some (⟨e, some rk, hinsert kv pieces1 rp0⟩, .captured)) ∧
    (∀ outs, pieces1.length = Union.threshold ⟨e, some rk, rp0⟩ nshards →
      optMap (fun p =>
        match Union.on_input ⟨e, some rk, hremove kv rp0⟩ p.1 p.2 with
        | none => none
        | some pr => some pr.results) pieces1 = some outs →
      Union.on_input_raw ⟨e, some rk, rp0⟩ frm rs (some (kc, kv)) nshards =
        some (⟨e, some rk, hremove kv rp0⟩, .replayPiece outs.flatten) ∧
      alookup (hremove kv rp0) kv = none) := by
  have hest : Union.establishReplayKey ⟨e, some rk, rp0⟩ frm kc =
      some ⟨e, some rk, rp0⟩ := rfl
  constructor
  · intro hlt
    simp only [Union.on_input_raw, hest, hnew, Option.isSome_none,
      Bool.false_eq_true, if_false, ← hp1]
    rw [if_neg (Nat.ne_of_lt hlt)]
  · intro outs heq hmap
    constructor
    · simp only [Union.on_input_raw, hest, hnew, Option.isSome_none,
        Bool.false_eq_true, if_false, ← hp1]
      rw [if_pos heq, hmap]
    · exact alookup_hremove_self kv rp0 hnd

/-- Closed instance discharging `replay_completion_spec` concretely: with two
ancestors, the first piece for key 1 is captured, and the second piece
releases the merged, transformed buffer while the per-key buffer is removed. -/
theorem replay_completion_spec_witness :
    Union.on_input_raw
        ⟨.project [(1, [0, 1]), (2, [0, 2])] [], some [(1, 0), (2, 0)], []⟩
        1 [Record.positive [DataType.int 1, DataType.text "a"]]
        (some (0, DataType.int 1)) 0 =
      some (⟨.project [(1, [0, 1]), (2, [0, 2])] [], some [(1, 0), (2, 0)],
          [(DataType.int 1, [(1, [Record.positive [DataType.int 1, DataType.text "a"]])])]⟩,
        .captured) ∧
    Union.on_input_raw
        ⟨.project [(1, [0, 1]), (2, [0, 2])] [], some [(1, 0), (2, 0)],
          [(DataType.int 1, [(1, [Record.positive [DataType.int 1, DataType.text "a"]])])]⟩
        2 [Record.positive [DataType.int 1, DataType.text "s", DataType.text "x"]]
        (some (0, DataType.int 1)) 0 =
      some (⟨.project [(1, [0, 1]), (2, [0, 2])] [], some [(1, 0), (2, 0)], []⟩,
        .replayPiece [Record.positive [DataType.int 1, DataType.text "a"],
          Record.positive [DataType.int 1, DataType.text "x"]]) := by
  constructor
  · exact (replay_completion_spec (.project [(1, [0, 1]), (2, [0, 2])] []) []
      1 [Record.positive [DataType.int 1, DataType.text "a"]] 0
      (DataType.int 1) 0 [(1, 0), (2, 0)]
      [(1, [Record.positive [DataType.int 1, DataType.text "a"]])]
      (by decide) (by decide) (by simp)).1 (by decide)
  · exact ((replay_completion_spec (.project [(1, [0, 1]), (2, [0, 2])] [])
      [(DataType.int 1, [(1, [Record.positive [DataType.int 1, DataType.text "a"]])])]
      2 [Record.positive [DataType.int 1, DataType.text "s", DataType.text "x"]]
      0 (DataType.int 1) 0 [(1, 0), (2, 0)]
      [(1, [Record.positive [DataType.int 1, DataType.text "a"]]),
       (2, [Record.positive [DataType.int 1, DataType.text "s", DataType.text "x"]])]
      (by decide) (by decide) (by simp)).2
      [[Record.positive [DataType.int 1, DataType.text "a"]],
       [Record.positive [DataType.int 1, DataType.text "x"]]]
      (by decide) (by decide)).1

/-- C10: in shard-merge mode the replay key established by the first replay
piece holds an entry only for the shard that sent it; no later call ever
changes an established replay key; and while the replay buffer is non-empty,
an ordinary batch from any other shard dies fatally on the missing replay-key
entry. -/
theorem allfrom_replay_key_discipline :
    (∀ (p s kc : Nat) (kv : DataType) (rs : Records) (nshards : Nat),
      ∃ u' res,
        Union.on_input_raw ⟨.allFrom p, none, []⟩ s rs
            (some (kc, kv)) nshards = some (u', res) ∧
          u'.replay_key = some [(s, kc)]) ∧
    (∀ (u : Union) (frm : Nat) (rs : Records)
        (iro : Option (Nat × DataType)) (nshards : Nat) (u' : Union)
        (res : RawProcessingResult),
      u.replay_key.isSome = true →
      u.on_input_raw frm rs iro nshards = some (u', res) →
      u'.replay_key = u.replay_key) ∧
    (∀ (s kc s' : Nat) (r : Record) (rs : Records) (nshards : Nat)
        (u : Union),
      u.replay_key = some [(s, kc)] → u.replay_pieces ≠ [] → s' ≠ s →
      u.on_input_raw s' (r :: rs) none nshards = none) := by
  refine ⟨?_, ?_, ?_⟩
  · intro p s kc kv rs nshards
    have hest : Union.establishReplayKey ⟨.allFrom p, none, []⟩ s kc =
        some ⟨.allFrom p, some [(s, kc)], []⟩ := rfl
    simp only [Union.on_input_raw, hest, Union.threshold, alookup, minsert,
      hremove, hinsert, optMap, Union.on_input, Option.getD_none,
      Option.isSome_none, Bool.false_eq_true, if_false, List.length_cons,
      List.length_nil]
    by_cases hn : 0 + 1 = nshards
    · rw [if_pos hn]
      exact ⟨_, _, rfl, rfl⟩
    · rw [if_neg hn]
      exact ⟨_, _, rfl, rfl⟩
  · exact on_input_raw_preserves_replay_key
  · intro s kc s' r rs nshards u hrk hne hss
    have hempty : u.replay_pieces.isEmpty = false := by
      cases hp : u.replay_pieces with
      | nil => exact absurd hp hne
      | cons a t => rfl
    have hmiss : alookup [(s, kc)] s' = none := by
      rw [alookup, if_neg hss]
      rfl
    simp only [Union.on_input_raw, hrk, hempty, Option.isNone_some,
      Bool.false_or, Bool.false_eq_true, if_false, absorbLeaked, hmiss]

/-- Closed instance discharging `allfrom_replay_key_discipline` concretely:
the first piece from shard 0 establishes the one-entry replay key, and an
ordinary batch from shard 1 during the in-flight replay is fatal. -/
theorem allfrom_replay_key_discipline_witness :
    (∃ u' res,
      Union.on_input_raw ⟨.allFrom 5, none, []⟩ 0
          [Record.positive [DataType.null, DataType.int 7]]
          (some (1, DataType.int 7)) 2 = some (u', res) ∧
        u'.replay_key = some [(0, 1)]) ∧
    Union.on_input_raw
        ⟨.allFrom 5, some [(0, 1)],
          [(DataType.int 7, [(0, [])])]⟩ 1
        [Record.positive [DataType.null, DataType.int 7]] none 2 = none := by
  constructor
  · exact allfrom_replay_key_discipline.1 5 0 1 (DataType.int 7)
      [Record.positive [DataType.null, DataType.int 7]] 2
  · exact allfrom_replay_key_discipline.2.2 0 1 1
      (Record.positive [DataType.null, DataType.int 7]) [] 2
      ⟨.allFrom 5, some [(0, 1)], [(DataType.int 7, [(0, [])])]⟩
      rfl (by simp) (by decide)

theorem map_eq_self_of_forall {α : Type} (l : List α) (g : α → α)
    (h : ∀ x ∈ l, g x = x) : l.map g = l := by
  have h2 : l.map g = l.map id := List.map_congr_left h
  rw [h2, List.map_id]

theorem alookup_isSome_of_mem_keys {α β : Type} [DecidableEq α] (k : α) :
    ∀ m : List (α × β), k ∈ m.map Prod.fst → (alookup m k).isSome = true
  | [], h => absurd h (by simp)
  | (k', v') :: rest, h => by
    rw [alookup]
    by_cases hk : k = k'
    · rw [if_pos hk]
      rfl
    · rw [if_neg hk]
      apply alookup_isSome_of_mem_keys k rest
      rw [List.map_cons, List.mem_cons] at h
      exact h.resolve_left hk

theorem not_mem_keys_of_alookup_eq_none {α β : Type} [DecidableEq α]
    {k : α} {m : List (α × β)} (h : alookup m k = none) :
    k ∉ m.map Prod.fst := by
  intro hm
  have h2 := alookup_isSome_of_mem_keys k m hm
  rw [h] at h2
  exact absurd h2 (by simp)

theorem perm_cons_hremove {α β : Type} [DecidableEq α] (k : α) (e : β) :
    ∀ m : List (α × β), alookup m k = some e →
      m.Perm ((k, e) :: hremove k m)
  | [], h => absurd h (by simp [alookup])
  | (k', v') :: rest, h => by
    rw [alookup] at h
    rw [hremove]
    by_cases hk : k = k'
    · rw [if_pos hk] at h ⊢
      injection h with h
      subst hk
      subst h
      exact List.Perm.refl _
    · rw [if_neg hk] at h ⊢
      exact ((perm_cons_hremove k e rest h).cons (k', v')).trans
        (List.Perm.swap (k, e) (k', v') (hremove k rest))

theorem remapOne_perm {β : Type} (m m₂ : List (Nat × β)) (f t : Nat)
    (hnd : (m.map Prod.fst).Nodup) (h : remapOne m f t = some m₂) :
    m₂.Perm (m.map (fun p => if p.1 = f then (t, p.2) else p)) ∧
      (m₂.map Prod.fst).Nodup := by
  simp only [remapOne] at h
  by_cases hft : f = t
  · rw [if_pos hft] at h
    injection h with h
    subst h
    subst hft
    refine ⟨?_, hnd⟩
    have hmapid : m.map (fun p => if p.1 = f then (f, p.2) else p) = m := by
      apply map_eq_self_of_forall
      intro p hp
      by_cases hp1 : p.1 = f
      · rw [if_pos hp1, ← hp1]
      · rw [if_neg hp1]
    rw [hmapid]
  · rw [if_neg hft] at h
    cases haf : alookup m f with
    | none =>
      simp only [haf, Option.some.injEq] at h
      subst h
      have hnm := not_mem_keys_of_alookup_eq_none haf
      refine ⟨?_, hnd⟩
      have hmapid : m.map (fun p => if p.1 = f then (t, p.2) else p) = m := by
        apply map_eq_self_of_forall
        intro p hp
        have hp1 : p.1 ≠ f :=
          fun he => hnm (he ▸ List.mem_map_of_mem Prod.fst hp)
        rw [if_neg hp1]
      rw [hmapid]
    | some e =>
      simp only [haf] at h
      by_cases hocc : (alookup (hremove f m) t).isSome = true
      · rw [if_pos hocc] at h
        exact absurd h (by simp)
      · rw [if_neg hocc] at h
        injection h with h
        subst h
        have hP : m.Perm ((f, e) :: hremove f m) := perm_cons_hremove f e m haf
        have hkeysP : (m.map Prod.fst).Perm
            (f :: (hremove f m).map Prod.fst) := by
          have h3 := hP.map Prod.fst
          simpa using h3
        have hnd2 := hkeysP.nodup_iff.mp hnd
        rw [List.nodup_cons] at hnd2
        obtain ⟨hfnot, hndhr⟩ := hnd2
        have htnot : t ∉ (hremove f m).map Prod.fst :=
          fun hm => hocc (alookup_isSome_of_mem_keys t (hremove f m) hm)
        have hid : (hremove f m).map
            (fun p => if p.1 = f then (t, p.2) else p) = hremove f m := by
          apply map_eq_self_of_forall
          intro p hp
          have hp1 : p.1 ≠ f := by
            intro he
            apply hfnot
            have hmem := List.mem_map_of_mem Prod.fst hp
            rw [he] at hmem
            exact hmem
          rw [if_neg hp1]
        constructor
        · have h1 : (hremove f m ++ [(t, e)]).Perm
              ((t, e) :: hremove f m) := List.perm_append_singleton _ _
          have h2 := hP.map (fun p => if p.1 = f then (t, p.2) else p)
          rw [List.map_cons, hid, if_pos rfl] at h2
          exact h1.trans h2.symm
        · have hk1 : ((hremove f m ++ [(t, e)]).map Prod.fst).Perm
              (t :: (hremove f m).map Prod.fst) := by
            rw [List.map_append]
            exact List.perm_append_singleton _ _
          rw [hk1.nodup_iff, List.nodup_cons]
          exact ⟨htnot, hndhr⟩

theorem remapFold_perm {β : Type} :
    ∀ (remap : List (Nat × Nat)) (m m₂ : List (Nat × β)),
      (m.map Prod.fst).Nodup → remapFold m remap = some m₂ →
      m₂.Perm (m.map (fun p => (rwAll remap p.1, p.2))) ∧
        (m₂.map Prod.fst).Nodup
  | [], m, m₂, hnd, h => by
    rw [remapFold] at h
    injection h with h
    subst h
    refine ⟨?_, hnd⟩
    rw [map_eq_self_of_forall m _ (fun p hp => by simp [rwAll])]
  | (f, t) :: rest, m, m₂, hnd, h => by
    rw [remapFold] at h
    cases h1 : remapOne m f t with
    | none =>
      rw [h1] at h
      exact absurd h (by simp)
    | some m₁ =>
      rw [h1] at h
      obtain ⟨hp1, hnd1⟩ := remapOne_perm m m₁ f t hnd h1
      obtain ⟨hp2, hnd2⟩ := remapFold_perm rest m₁ m₂ hnd1 h
      refine ⟨?_, hnd2⟩
      have hcomp : (m.map (fun p => if p.1 = f then (t, p.2) else p)).map
          (fun p => (rwAll rest p.1, p.2)) =
          m.map (fun p => (rwAll ((f, t) :: rest) p.1, p.2)) := by
        rw [List.map_map]
        apply List.map_congr_left
        intro p hp
        by_cases hpf : p.1 = f
        · simp [Function.comp, hpf, rwAll, List.foldl_cons]
        · simp [Function.comp, hpf, rwAll, List.foldl_cons]
      have h4 := hp1.map (fun p => (rwAll rest p.1, p.2))
      rw [hcomp] at h4
      exact hp2.trans h4

theorem rwAll_of_not_src :
    ∀ (remap : List (Nat × Nat)) (k : Nat),
      k ∉ remap.map Prod.fst → rwAll remap k = k
  | [], _, _ => rfl
  | (f, t) :: rest, k, h => by
    have hkf : k ≠ f := fun he => h (by simp [he])
    have h2 : k ∉ rest.map Prod.fst := fun hm => h (by simp [hm])
    simp only [rwAll, List.foldl_cons]
    rw [if_neg hkf]
    exact rwAll_of_not_src rest k h2

theorem rwAll_eq_mapThrough :
    ∀ (remap : List (Nat × Nat)),
      (remap.map Prod.fst).Nodup →
      (∀ q ∈ remap, q.1 ≠ q.2 → q.2 ∉ remap.map Prod.fst) →
      ∀ k, rwAll remap k = mapThrough remap k
  | [], _, _, _ => rfl
  | (f, t) :: rest, hsrc, hnc, k => by
    rw [List.map_cons, List.nodup_cons] at hsrc
    obtain ⟨hf, hsrc'⟩ := hsrc
    have hnc' : ∀ q ∈ rest, q.1 ≠ q.2 → q.2 ∉ rest.map Prod.fst := by
      intro q hq hne hmem
      exact hnc q (List.mem_cons_of_mem _ hq) hne (by simp [hmem])
    simp only [rwAll, List.foldl_cons]
    by_cases hk : k = f
    · rw [if_pos hk]
      rw [mapThrough, alookup, if_pos hk, Option.getD_some]
      by_cases hft : f = t
      · exact rwAll_of_not_src rest t (hft ▸ hf)
      · have h3 : t ∉ (f, t).1 :: rest.map Prod.fst := by
          have := hnc (f, t) (List.mem_cons_self _ _) hft
          simpa using this
        have h4 : t ∉ rest.map Prod.fst := fun hm => h3 (by simp [hm])
        exact rwAll_of_not_src rest t h4
    · rw [if_neg hk]
      rw [mapThrough, alookup, if_neg hk]
      exact rwAll_eq_mapThrough rest hsrc' hnc' k

/-- C7: under a well-formed remap table (distinct sources, targets fresh from
sources), committing rewrites every `emit`/`cols` key of the projecting union
through the table (identity or absent entries leave the key unchanged),
rewrites the single parent of a shard-merge union, and dies fatally (the
failing `assert!`) whenever two distinct ancestors would land on the same new
key. -/
theorem on_commit_rewrites_keys (em : List (Nat × List Nat))
    (cs : List (Nat × Nat)) (rk : Option (List (Nat × Nat)))
    (rp : List (DataType × List (Nat × Records)))
    (remap : List (Nat × Nat))
    (hem : (em.map Prod.fst).Nodup) (hcs : (cs.map Prod.fst).Nodup)
    (hsrc : (remap.map Prod.fst).Nodup)
    (hnc : ∀ q ∈ remap, q.1 ≠ q.2 → q.2 ∉ remap.map Prod.fst) :
    (∀ u', Union.on_commit ⟨.project em cs, rk, rp⟩ remap = some u' →
      ∃ em' cs', u'.emit = .project em' cs' ∧
        em'.Perm (em.map (fun p => (mapThrough remap p.1, p.2))) ∧
        cs'.Perm (cs.map (fun p => (mapThrough remap p.1, p.2)))) ∧
    ((∃ k1 ∈ em.map Prod.fst, ∃ k2 ∈ em.map Prod.fst,
        k1 ≠ k2 ∧ mapThrough remap k1 = mapThrough remap k2) →
      Union.on_commit ⟨.project em cs, rk, rp⟩ remap = none) ∧
    (∀ (u : Union) (p : Nat), u.emit = .allFrom p →
      Union.on_commit u remap =
        (alookup remap p).map (fun q => { u with emit := .allFrom q })) := by
  refine ⟨?_, ?_, ?_⟩
  · intro u' h
    cases h1 : remapFold em remap with
    | none =>
      simp only [Union.on_commit, h1] at h
      exact absurd h (by simp)
    | some em₁ =>
      cases h2 : remapFold cs remap with
      | none =>
        simp only [Union.on_commit, h1, h2] at h
        exact absurd h (by simp)
      | some cs₁ =>
        simp only [Union.on_commit, h1, h2, Option.some.injEq] at h
        subst h
        refine ⟨em₁, cs₁, rfl, ?_, ?_⟩
        · obtain ⟨hperm, _⟩ := remapFold_perm remap em em₁ hem h1
          have heq : em.map (fun p => (rwAll remap p.1, p.2)) =
              em.map (fun p => (mapThrough remap p.1, p.2)) :=
            List.map_congr_left
              (fun p _ => by rw [rwAll_eq_mapThrough remap hsrc hnc])
          rw [← heq]
          exact hperm
        · obtain ⟨hperm, _⟩ := remapFold_perm remap cs cs₁ hcs h2
          have heq : cs.map (fun p => (rwAll remap p.1, p.2)) =
              cs.map (fun p => (mapThrough remap p.1, p.2)) :=
            List.map_congr_left
              (fun p _ => by rw [rwAll_eq_mapThrough remap hsrc hnc])
          rw [← heq]
          exact hperm
  · rintro ⟨k1, hk1, k2, hk2, hne, heq⟩
    cases h1 : remapFold em remap with
    | none => simp only [Union.on_commit, h1]
    | some em₁ =>
      obtain ⟨hperm, hnd1⟩ := remapFold_perm remap em em₁ hem h1
      have hkeys : (em₁.map Prod.fst).Perm
          ((em.map Prod.fst).map (rwAll remap)) := by
        have h3 := hperm.map Prod.fst
        simpa [List.map_map, Function.comp] using h3
      have hndmap := hkeys.nodup_iff.mp hnd1
      have hinj := List.inj_on_of_nodup_map hndmap
      have e1 : rwAll remap k1 = rwAll remap k2 := by
        rw [rwAll_eq_mapThrough remap hsrc hnc k1,
          rwAll_eq_mapThrough remap hsrc hnc k2, heq]
      exact absurd (hinj hk1 hk2 e1) hne
  · intro u p hp
    simp only [Union.on_commit, hp]
    cases halk : alookup remap p with
    | none => rfl
    | some q => rfl

/-- Closed instance discharging `on_commit_rewrites_keys` concretely: a remap
sending two ancestors to the same new key is fatal, and a collision-free
remap rewrites both emit keys. -/
theorem on_commit_rewrites_keys_witness :
    Union.on_commit ⟨.project [(1, [0]), (2, [1])] [], none, []⟩
        [(1, 5), (2, 5)] = none ∧
    (∃ em' cs',
      (⟨.project [(10, [0]), (20, [1])] [], none, []⟩ : Union).emit =
        .project em' cs' ∧
      em'.Perm ([(1, [0]), (2, [1])].map
        (fun p => (mapThrough [(1, 10), (2, 20)] p.1, p.2))) ∧
      cs'.Perm (([] : List (Nat × Nat)).map
        (fun p => (mapThrough [(1, 10), (2, 20)] p.1, p.2)))) := by
  constructor
  · exact (on_commit_rewrites_keys [(1, [0]), (2, [1])] [] none []
      [(1, 5), (2, 5)] (by simp) (by simp) (by simp)
      (by
        intro q hq hne hmem
        rcases List.mem_cons.mp hq with h | h
        · subst h
          simp at hmem
        · rw [List.mem_singleton] at h
          subst h
          simp at hmem)).2.1
      ⟨1, by simp, 2, by simp, by omega, by decide⟩
  · exact (on_commit_rewrites_keys [(1, [0]), (2, [1])] [] none []
      [(1, 10), (2, 20)] (by simp) (by simp) (by simp)
      (by
        intro q hq hne hmem
        rcases List.mem_cons.mp hq with h | h
        · subst h
          simp at hmem
        · rw [List.mem_singleton] at h
          subst h
          simp at hmem)).1
      ⟨.project [(10, [0]), (20, [1])] [], none, []⟩ (by decide)

end Noria
